import Mathlib

/-!
Shallow embedding of the javascript-object-validator repository
(src/javascriptObjectValidator.js) and proofs about it.

The single exported function `validate(object, propertyDescriptors, lazy)`
walks the descriptor list with `Array.prototype.some`, normalizing each
visited descriptor, evaluating it with `doesObjectHaveAny` /
`doesObjectHaveProperty`, and collecting error payloads.  Runtime
exceptions (TypeError from indexing into `null`/`undefined` or calling
`split` on a non-string) are modelled with `Except Unit`.
-/

/-- JavaScript values as exercised by the validator: `undefined`, `null`,
booleans, integer-valued numbers, the not-a-number sentinel `NaN`,
strings, and plain objects given as association lists of string keys.
Built-in prototype properties of primitives (such as `length` on a
string) are not modelled: property access on a primitive other than
`null`/`undefined` yields `undefined`. -/
inductive JSValue where
  | undefined : JSValue
  | null : JSValue
  | bool : Bool → JSValue
  | num : Int → JSValue
  | nan : JSValue
  | str : String → JSValue
  | obj : List (String × JSValue) → JSValue

/-- The check `curVal !== undefined && curVal !== null` from
`doesObjectHaveProperty`. -/
def isDefined : JSValue → Bool
  | .undefined => false
  | .null => false
  | _ => true

/-- JavaScript property access `base[key]`: it throws a TypeError iff
the base is `undefined` or `null`; on an object it yields the named
field (or `undefined` when absent); on any other primitive it yields
`undefined`. -/
def getMember : JSValue → String → Except Unit JSValue
  | .undefined, _ => .error ()
  | .null, _ => .error ()
  | .obj fields, key => .ok ((fields.lookup key).getD .undefined)
  | _, _ => .ok .undefined

/-- JavaScript string split on the dot character, on the underlying
character list; as in JavaScript, the empty string yields a one-element
list containing the empty string. -/
def splitCharsOnDot : List Char → List (List Char)
  | [] => [[]]
  | c :: cs =>
    if c = '.' then [] :: splitCharsOnDot cs
    else
      match splitCharsOnDot cs with
      | [] => [[c]]
      | r :: rs => (c :: r) :: rs

/-- The call `propertyString.split` from `doesObjectHaveProperty`: it
throws unless the receiver is a string (calling `split` on `undefined`
or a number is a TypeError). -/
def jsSplitDot : JSValue → Except Unit (List String)
  | .str s => .ok ((splitCharsOnDot s.data).map String.mk)
  | _ => .error ()

/-- SameValueZero, the equality used by `Array.prototype.includes`:
like strict equality except that `NaN` matches `NaN`.  Two objects of
this embedding stand for distinct references and never compare equal. -/
def sameValueZero : JSValue → JSValue → Bool
  | .undefined, .undefined => true
  | .null, .null => true
  | .bool a, .bool b => a == b
  | .num a, .num b => a == b
  | .nan, .nan => true
  | .str a, .str b => a == b
  | _, _ => false

/-- Modelled from the spec: the exact-equality semantics (JavaScript
triple-equals) that the spec says membership uses for values other than
`NaN` — identical to `sameValueZero` except that `NaN` equals nothing,
itself included. -/
def strictEq : JSValue → JSValue → Bool
  | .undefined, .undefined => true
  | .null, .null => true
  | .bool a, .bool b => a == b
  | .num a, .num b => a == b
  | .nan, .nan => false
  | .str a, .str b => a == b
  | _, _ => false

/-- JavaScript truthiness, as used by `if (propertyDescriptor.error)`
and by the `some` loops. -/
def truthy : JSValue → Bool
  | .undefined => false
  | .null => false
  | .bool b => b
  | .num n => n != 0
  | .nan => false
  | .str s => s != ""
  | .obj _ => true

/-- JavaScript string coercion, as performed by
`errorMessage += requiredProperty`. -/
def jsStringOfValue : JSValue → String
  | .undefined => "undefined"
  | .null => "null"
  | .bool true => "true"
  | .bool false => "false"
  | .num n => toString n
  | .nan => "NaN"
  | .str s => s
  | .obj _ => "[object Object]"

/-- JavaScript string trim: strip leading and trailing whitespace. -/
def jsTrim (s : String) : String :=
  String.mk (((s.data.dropWhile Char.isWhitespace).reverse.dropWhile Char.isWhitespace).reverse)

/-- The `splitProperties.every` loop of `doesObjectHaveProperty`: walk
the object along the path segments, reassigning `curVal` at each step
and stopping with `containsProperty = false` as soon as the value
reached is `undefined` or `null`; returns the final `curVal` together
with `containsProperty`.  The property access itself throws when its
base is `undefined` or `null` (which, given the early stop, can only
happen at the root). -/
def walkPath : JSValue → List String → Except Unit (JSValue × Bool)
  | curVal, [] => .ok (curVal, true)
  | curVal, property :: rest =>
    match getMember curVal property with
    | .error e => .error e
    | .ok next => if isDefined next then walkPath next rest else .ok (next, false)

/-- The function `doesObjectHaveProperty(curVal, propertyString,
invalidValues)`.  `invalidValues` is modelled as an optional array,
`none` standing for the absent (hence falsy) field, which covers every
use the repository exercises. -/
def doesObjectHaveProperty (curVal propertyString : JSValue)
    (invalidValues : Option (List JSValue)) : Except Unit Bool :=
  match jsSplitDot propertyString with
  | .error e => .error e
  | .ok splitProperties =>
    match walkPath curVal splitProperties with
    | .error e => .error e
    | .ok (finalVal, containsProperty) =>
      .ok (containsProperty &&
        (match invalidValues with
         | none => true
         | some vs => !(vs.any (fun v => sameValueZero v finalVal))))

/-- The `required.some` loop of `doesObjectHaveAny`: the captured
`result` starts as the JavaScript `null` (here `none`) and is
overwritten by each candidate evaluation; iteration stops at the first
candidate that evaluates to `true`. -/
def doesObjectHaveAnyAux (object : JSValue) (invalidValues : Option (List JSValue)) :
    List JSValue → Option Bool → Except Unit (Option Bool)
  | [], result => .ok result
  | requiredProperty :: rest, _ =>
    match doesObjectHaveProperty object requiredProperty invalidValues with
    | .error e => .error e
    | .ok b =>
      if b then .ok (some true)
      else doesObjectHaveAnyAux object invalidValues rest (some false)

/-- The function `doesObjectHaveAny(object, requiredPropertyDescriptor)`
over the already-normalized candidate array; `none` is the JavaScript
`null` it returns when the candidate array is empty. -/
def doesObjectHaveAny (object : JSValue) (required : List JSValue)
    (invalidValues : Option (List JSValue)) : Except Unit (Option Bool) :=
  doesObjectHaveAnyAux object invalidValues required none

/-- The `required` field of a property descriptor: either a JavaScript
array of candidate values, or any non-array value — a path string in a
well-formed descriptor, `undefined` when the field is absent. -/
inductive ReqField where
  | nonArray : JSValue → ReqField
  | array : List JSValue → ReqField

/-- A property descriptor.  `error` is plain `undefined` when the field
is absent, so the truthiness test of the source is represented
faithfully. -/
structure PropertyDescriptor where
  required : ReqField
  invalidValues : Option (List JSValue) := none
  error : JSValue := .undefined

/-- The `Array.isArray` normalization in `validate`: a non-array
`required` value is wrapped into a one-element array. -/
def normalizeRequired : ReqField → List JSValue
  | .nonArray v => [v]
  | .array vs => vs

/-- A descriptor after the in-place normalization of its `required`
field performed by `validate`. -/
def normalizeDescriptor (d : PropertyDescriptor) : PropertyDescriptor :=
  { d with required := .array (normalizeRequired d.required) }

/-- One iteration of the `forEach` that builds the default error
message, with `len` the length of the candidate array and `idx` the
current index. -/
def messageStep (len idx : Nat) (requiredProperty : JSValue) (errorMessage : String) : String :=
  let errorMessage := if len > 1 && idx == len - 1 then errorMessage ++ "or " else errorMessage
  let errorMessage := errorMessage ++ jsStringOfValue requiredProperty
  if len > 2 && idx != len - 1 then errorMessage ++ ", "
  else if len ≥ 2 then errorMessage ++ " "
  else errorMessage

/-- The `forEach` loop over the candidate array that builds the default
error message. -/
def messageLoop (len : Nat) : Nat → List JSValue → String → String
  | _, [], errorMessage => errorMessage
  | idx, p :: rest, errorMessage =>
    messageLoop len (idx + 1) rest (messageStep len idx p errorMessage)

/-- The default error message for a normalized candidate array: the
fixed prefix, the joined candidates, then a trim. -/
def defaultMessage (required : List JSValue) : String :=
  jsTrim (messageLoop required.length 0 required "Object must contain a valid value for ")

/-- The error payload pushed for an invalid descriptor: the custom
`error` field when it is truthy, otherwise the generated default
message object. -/
def errorPayload (d : PropertyDescriptor) : JSValue :=
  if truthy d.error then d.error
  else .obj [("message", .str (defaultMessage (normalizeRequired d.required)))]

/-- The body of the `some` callback in `validate`: normalize the
descriptor in place, evaluate it with `doesObjectHaveAny` (whose result
is truthy exactly when it is `true`), and produce the error payload to
push (`none` when the descriptor is valid). -/
def processDescriptor (object : JSValue) (d : PropertyDescriptor) :
    Except Unit (PropertyDescriptor × Option JSValue) :=
  match doesObjectHaveAny object (normalizeRequired d.required) d.invalidValues with
  | .error e => .error e
  | .ok (some true) => .ok (normalizeDescriptor d, none)
  | .ok _ => .ok (normalizeDescriptor d, some (errorPayload d))

/-- The validation result object: the `valid` flag plus the collected
error payloads. -/
structure ValidationResult where
  valid : Bool
  errors : List JSValue

/-- The `propertyDescriptors.some` loop of `validate`, threading the
result accumulator and returning, alongside the result, the final state
of the caller-supplied descriptor array (descriptors not yet visited
when lazy evaluation stops come back unchanged). -/
def validateAux (object : JSValue) (lazy : Bool) :
    List PropertyDescriptor → ValidationResult →
    Except Unit (ValidationResult × List PropertyDescriptor)
  | [], result => .ok (result, [])
  | d :: rest, result =>
    match processDescriptor object d with
    | .error e => .error e
    | .ok (d', none) =>
      match validateAux object lazy rest result with
      | .error e => .error e
      | .ok (result', rest') => .ok (result', d' :: rest')
    | .ok (d', some e) =>
      let pushed : ValidationResult := { valid := false, errors := result.errors ++ [e] }
      if lazy then .ok (pushed, d' :: rest)
      else
        match validateAux object lazy rest pushed with
        | .error er => .error er
        | .ok (result', rest') => .ok (result', d' :: rest')

/-- The exported entry point `validate(object, propertyDescriptors,
lazy)`; an absent `lazy` argument is the falsy `undefined`, hence the
default `false`. -/
def validate (object : JSValue) (propertyDescriptors : List PropertyDescriptor)
    (lazy : Bool := false) : Except Unit (ValidationResult × List PropertyDescriptor) :=
  validateAux object lazy propertyDescriptors { valid := true, errors := [] }

/-! ### The README scenario -/

/-- The object validated in the README example. -/
def toValidate : JSValue :=
  .obj [("name", .str "John"), ("age", .num 26),
        ("spouse", .obj [("name", .str "Jane"), ("age", .nan)])]

/-- The five property descriptors of the README example. -/
def readmeDescriptors : List PropertyDescriptor :=
  [{ required := .nonArray (.str "name") },
   { required := .nonArray (.str "age"), invalidValues := some [.nan] },
   { required := .nonArray (.str "spouse.name"), invalidValues := some [.str ""],
     error := .obj [("message", .str "spouse is required and must contain a name")] },
   { required := .nonArray (.str "spouse.age"), invalidValues := some [.nan],
     error := .obj [("message", .str "spouse is required and must contain an age")] },
   { required := .array [.str "notThere", .str "alsoNotThere"] }]

/-- Modelled from the spec: the tail of the Oxford-comma style join for
three or more paths — comma-separated entries with the word or before
the last one. -/
def oxfordJoinTail : List String → String
  | [] => ""
  | [x] => "or " ++ x
  | x :: rest => x ++ ", " ++ oxfordJoinTail rest

/-- Modelled from the spec: the join rule for the default message — a
single path alone, two paths joined with the word or, three or more
comma-separated with the word or before the last (Oxford-comma
style). -/
def oxfordJoin : List String → String
  | [] => ""
  | [x] => x
  | [x, y] => x ++ " or " ++ y
  | x :: rest => x ++ ", " ++ oxfordJoinTail rest

/-- C1: on the README object and its five descriptors, non-lazy
validation returns valid false with exactly the custom spouse-age error
followed by the generated one-of message, and lazy validation returns
only the first of those two payloads. -/
theorem c1_readme_scenario :
    (validate toValidate readmeDescriptors false).map Prod.fst =
      .ok { valid := false,
            errors := [.obj [("message", .str "spouse is required and must contain an age")],
                       .obj [("message",
                         .str "Object must contain a valid value for notThere or alsoNotThere")]] } ∧
    (validate toValidate readmeDescriptors true).map Prod.fst =
      .ok { valid := false,
            errors := [.obj [("message", .str "spouse is required and must contain an age")]] } :=
  ⟨rfl, rfl⟩

/-- C10: a descriptor whose normalized required list is empty is judged
invalid against every object (the some loop never runs, so the result
stays the falsy null), and with no custom error the appended payload is
exactly the default message with no path names and no trailing space. -/
theorem c10_empty_required_array :
    (∀ (object : JSValue) (invalidValues : Option (List JSValue)),
        doesObjectHaveAny object [] invalidValues = .ok none) ∧
    (∀ (object : JSValue) (lazy : Bool),
        validate object [{ required := .array [] }] lazy =
          .ok ({ valid := false,
                 errors := [.obj [("message", .str "Object must contain a valid value for")]] },
               [{ required := .array [] }])) := by
  refine ⟨fun _ _ => rfl, fun object lazy => ?_⟩
  cases lazy <;> rfl

/-- C3 counterexample: a failing descriptor that supplies the falsy
error value `false` gets the generated default message appended, not
the supplied value, so a supplied error is not always passed through. -/
theorem c3_counterexample :
    (validate (.obj []) [{ required := .nonArray (.str "x"), error := .bool false }] false).map
        Prod.fst =
      .ok { valid := false,
            errors := [.obj [("message", .str "Object must contain a valid value for x")]] } ∧
    JSValue.obj [("message", .str "Object must contain a valid value for x")] ≠ .bool false :=
  ⟨rfl, fun h => JSValue.noConfusion h⟩

/-- C3 (amended): the supplied error value is appended verbatim exactly
when it is truthy; when the error field is absent or falsy the
generated default message object is appended instead, because the
source tests the field with a truthiness check rather than presence. -/
theorem c3_error_passthrough (object : JSValue) (d : PropertyDescriptor)
    (r : ValidationResult) (ds' : List PropertyDescriptor)
    (hrun : validate object [d] false = .ok (r, ds'))
    (hinvalid : r.valid = false) :
    (truthy d.error = true → r.errors = [d.error]) ∧
    (truthy d.error = false →
      r.errors = [.obj [("message", .str (defaultMessage (normalizeRequired d.required)))]]) := by
  unfold validate validateAux processDescriptor at hrun
  cases hany : doesObjectHaveAny object (normalizeRequired d.required) d.invalidValues with
  | error e => rw [hany] at hrun; exact absurd hrun (by simp)
  | ok v =>
    rw [hany] at hrun
    match v with
    | some true =>
      simp only [validateAux] at hrun
      cases hrun
      exact absurd hinvalid (by simp)
    | some false =>
      simp only [validateAux] at hrun
      cases hrun
      constructor <;> intro ht <;> simp [errorPayload, ht]
    | none =>
      simp only [validateAux] at hrun
      cases hrun
      constructor <;> intro ht <;> simp [errorPayload, ht]

/-- C3 witness: concrete instance of the pass-through theorem, with a
truthy custom error string carried through verbatim. -/
theorem c3_error_passthrough_witness :
    truthy (JSValue.str "custom") = true ∧
    ({ valid := false, errors := [.str "custom"] } : ValidationResult).errors =
      [(JSValue.str "custom")] := by
  refine ⟨rfl, ?_⟩
  exact (c3_error_passthrough (.obj []) { required := .nonArray (.str "x"), error := .str "custom" }
    { valid := false, errors := [.str "custom"] }
    [{ required := .array [.str "x"], error := .str "custom" }]
    (by rfl) rfl).1 rfl

/-! ### Unfolding equations used throughout the proofs -/

/-- Walking an empty segment list leaves the value and reports found. -/
theorem walkPath_nil (curVal : JSValue) : walkPath curVal [] = .ok (curVal, true) := rfl

/-- One step of the path walk. -/
theorem walkPath_cons (curVal : JSValue) (property : String) (rest : List String) :
    walkPath curVal (property :: rest) =
      match getMember curVal property with
      | .error e => .error e
      | .ok next => if isDefined next then walkPath next rest else .ok (next, false) := rfl

/-- Evaluation of `doesObjectHaveProperty` at a string path: split
always succeeds and the rest is the walk plus the membership check. -/
theorem doesObjectHaveProperty_str (curVal : JSValue) (s : String) (iv : Option (List JSValue)) :
    doesObjectHaveProperty curVal (.str s) iv =
      match walkPath curVal ((splitCharsOnDot s.data).map String.mk) with
      | .error e => .error e
      | .ok (finalVal, containsProperty) =>
        .ok (containsProperty &&
          (match iv with
           | none => true
           | some vs => !(vs.any (fun v => sameValueZero v finalVal)))) := rfl

/-- One step of the candidate loop of `doesObjectHaveAny`. -/
theorem doesObjectHaveAnyAux_cons (object : JSValue) (iv : Option (List JSValue))
    (p : JSValue) (rest : List JSValue) (acc : Option Bool) :
    doesObjectHaveAnyAux object iv (p :: rest) acc =
      match doesObjectHaveProperty object p iv with
      | .error e => .error e
      | .ok b =>
        if b then .ok (some true) else doesObjectHaveAnyAux object iv rest (some false) := rfl

/-- One step of the descriptor loop of `validate`. -/
theorem validateAux_cons (object : JSValue) (lazy : Bool) (d : PropertyDescriptor)
    (rest : List PropertyDescriptor) (result : ValidationResult) :
    validateAux object lazy (d :: rest) result =
      match processDescriptor object d with
      | .error e => .error e
      | .ok (d', none) =>
        match validateAux object lazy rest result with
        | .error e => .error e
        | .ok (result', rest') => .ok (result', d' :: rest')
      | .ok (d', some e) =>
        if lazy then .ok ({ valid := false, errors := result.errors ++ [e] }, d' :: rest)
        else
          match validateAux object lazy rest { valid := false, errors := result.errors ++ [e] } with
          | .error er => .error er
          | .ok (result', rest') => .ok (result', d' :: rest') := rfl

/-! ### NaN membership (C4) -/

/-- SameValueZero against the NaN sentinel holds exactly for NaN itself. -/
theorem sameValueZero_nan_iff (u : JSValue) : sameValueZero .nan u = true ↔ u = .nan := by
  cases u <;> simp [sameValueZero]

/-- C4: the membership test used for invalidValues matches NaN against
NaN, agrees with exact equality whenever the compared values are not
both NaN, and consequently the age descriptor with invalidValues
containing NaN evaluates to true on a defined object exactly when the
age field resolves to a defined, non-NaN value. -/
theorem c4_nan_membership (v w object age : JSValue)
    (hvw : ¬(v = .nan ∧ w = .nan))
    (hage : getMember object "age" = .ok age) :
    sameValueZero .nan .nan = true ∧
    sameValueZero v w = strictEq v w ∧
    doesObjectHaveProperty object (.str "age") (some [.nan]) =
      .ok (isDefined age && !(sameValueZero .nan age)) ∧
    (doesObjectHaveProperty object (.str "age") (some [.nan]) = .ok true ↔
      (isDefined age = true ∧ age ≠ .nan)) := by
  have hmain : doesObjectHaveProperty object (.str "age") (some [.nan]) =
      .ok (isDefined age && !(sameValueZero .nan age)) := by
    rw [doesObjectHaveProperty_str]
    rw [show (splitCharsOnDot "age".data).map String.mk = ["age"] from rfl]
    rw [walkPath_cons, hage]
    cases hd : isDefined age <;> simp [hd, walkPath_nil]
  refine ⟨rfl, ?_, hmain, ?_⟩
  · cases v <;> cases w <;> first
      | rfl
      | exact absurd ⟨rfl, rfl⟩ hvw
  · rw [hmain]
    simp only [Except.ok.injEq]
    constructor
    · intro h
      have h1 : isDefined age = true := by
        cases hi : isDefined age
        · rw [hi] at h; simp at h
        · rfl
      have h2 : sameValueZero .nan age = false := by
        cases hz : sameValueZero .nan age
        · rfl
        · rw [h1, hz] at h; simp at h
      refine ⟨h1, fun hcon => ?_⟩
      rw [hcon] at h2
      simp [sameValueZero] at h2
    · rintro ⟨h1, h2⟩
      rw [h1]
      have h3 : sameValueZero .nan age = false := by
        cases hz : sameValueZero .nan age
        · rfl
        · exact absurd ((sameValueZero_nan_iff age).mp hz) h2
      rw [h3]
      rfl

/-- C4 witness: concrete instance on the README object, whose age field
holds 26, a defined non-NaN value. -/
theorem c4_nan_membership_witness :
    ¬(JSValue.num 1 = .nan ∧ JSValue.num 2 = .nan) ∧
    (doesObjectHaveProperty toValidate (.str "age") (some [.nan]) = .ok true ↔
      (isDefined (.num 26) = true ∧ JSValue.num 26 ≠ .nan)) := by
  refine ⟨fun h => JSValue.noConfusion h.1, ?_⟩
  exact (c4_nan_membership (.num 1) (.num 2) toValidate (.num 26)
    (fun h => JSValue.noConfusion h.1) (by rfl)).2.2.2

/-! ### Safety of validation (C2) -/

/-- Property access on a defined base never throws. -/
theorem getMember_ok (curVal : JSValue) (key : String) (h : isDefined curVal = true) :
    ∃ v, getMember curVal key = .ok v := by
  cases curVal
  · simp [isDefined] at h
  · simp [isDefined] at h
  · exact ⟨_, rfl⟩
  · exact ⟨_, rfl⟩
  · exact ⟨_, rfl⟩
  · exact ⟨_, rfl⟩
  · exact ⟨_, rfl⟩

/-- The path walk never throws from a defined starting value. -/
theorem walkPath_ok (segs : List String) :
    ∀ curVal : JSValue, isDefined curVal = true → ∃ q, walkPath curVal segs = .ok q := by
  induction segs with
  | nil => exact fun curVal _ => ⟨(curVal, true), rfl⟩
  | cons s rest ih =>
    intro curVal h
    obtain ⟨v, hv⟩ := getMember_ok curVal s h
    rw [walkPath_cons, hv]
    cases hd : isDefined v
    · exact ⟨(v, false), by simp [hd]⟩
    · obtain ⟨q, hq⟩ := ih v hd
      exact ⟨q, by simp [hd, hq]⟩

/-- Evaluating a string path against a defined object never throws. -/
theorem doesObjectHaveProperty_ok (curVal : JSValue) (s : String)
    (iv : Option (List JSValue)) (h : isDefined curVal = true) :
    ∃ b, doesObjectHaveProperty curVal (.str s) iv = .ok b := by
  rw [doesObjectHaveProperty_str]
  obtain ⟨⟨fv, cp⟩, hw⟩ := walkPath_ok ((splitCharsOnDot s.data).map String.mk) curVal h
  rw [hw]
  exact ⟨_, rfl⟩

/-- The candidate loop never throws when every candidate is a string
path and the object is defined. -/
theorem doesObjectHaveAnyAux_ok (object : JSValue) (iv : Option (List JSValue))
    (h : isDefined object = true) :
    ∀ (ps : List JSValue) (acc : Option Bool),
      (∀ p ∈ ps, ∃ s, p = JSValue.str s) →
      ∃ v, doesObjectHaveAnyAux object iv ps acc = .ok v := by
  intro ps
  induction ps with
  | nil => exact fun acc _ => ⟨acc, rfl⟩
  | cons p rest ih =>
    intro acc hps
    obtain ⟨s, hs⟩ := hps p (List.mem_cons_self p rest)
    subst hs
    obtain ⟨b, hb⟩ := doesObjectHaveProperty_ok object s iv h
    rw [doesObjectHaveAnyAux_cons, hb]
    cases b
    · obtain ⟨v, hv⟩ := ih (some false) (fun q hq => hps q (List.mem_cons_of_mem _ hq))
      exact ⟨v, by simp [hv]⟩
    · exact ⟨some true, by simp⟩

/-- Processing a well-formed descriptor against a defined object never
throws. -/
theorem processDescriptor_ok (object : JSValue) (d : PropertyDescriptor)
    (h : isDefined object = true)
    (hwf : ∀ p ∈ normalizeRequired d.required, ∃ s, p = JSValue.str s) :
    ∃ q, processDescriptor object d = .ok q := by
  unfold processDescriptor doesObjectHaveAny
  obtain ⟨v, hv⟩ :=
    doesObjectHaveAnyAux_ok object d.invalidValues h (normalizeRequired d.required) none hwf
  rw [hv]
  rcases v with _ | b
  · exact ⟨_, rfl⟩
  · cases b
    · exact ⟨_, rfl⟩
    · exact ⟨_, rfl⟩

/-- The descriptor loop never throws for a defined object and a
well-formed descriptor list, whatever the accumulator. -/
theorem validateAux_ok (object : JSValue) (lazy : Bool) (hobj : isDefined object = true) :
    ∀ (ds : List PropertyDescriptor) (acc : ValidationResult),
      (∀ d ∈ ds, ∀ p ∈ normalizeRequired d.required, ∃ s, p = JSValue.str s) →
      ∃ q, validateAux object lazy ds acc = .ok q := by
  intro ds
  induction ds with
  | nil => exact fun acc _ => ⟨_, rfl⟩
  | cons d rest ih =>
    intro acc hwf
    obtain ⟨⟨d', payload⟩, hp⟩ :=
      processDescriptor_ok object d hobj (hwf d (List.mem_cons_self d rest))
    rw [validateAux_cons, hp]
    rcases payload with _ | e
    · obtain ⟨⟨r', rest'⟩, hr⟩ := ih acc (fun x hx => hwf x (List.mem_cons_of_mem _ hx))
      exact ⟨(r', d' :: rest'), by rw [hr]⟩
    · cases lazy
      · obtain ⟨⟨r', rest'⟩, hr⟩ := ih { valid := false, errors := acc.errors ++ [e] }
          (fun x hx => hwf x (List.mem_cons_of_mem _ hx))
        exact ⟨(r', d' :: rest'), by simp [hr]⟩
      · exact ⟨({ valid := false, errors := acc.errors ++ [e] }, d' :: rest), by simp⟩

/-- C2 (amended): for a well-formed descriptor list (every candidate
path a string) and any input object other than `undefined` and `null`
— primitives and objects missing any intermediate included — validate
completes with a ValidationResult, and resolving a path stops at a
missing (undefined or null) intermediate with a not-found report
rather than throwing.  A `null` or `undefined` root object, by
contrast, makes the very first property access throw. -/
theorem c2_no_throw (object : JSValue) (ds : List PropertyDescriptor) (lazy : Bool)
    (hobj : isDefined object = true)
    (hwf : ∀ d ∈ ds, ∀ p ∈ normalizeRequired d.required, ∃ s, p = JSValue.str s) :
    (∃ r ds', validate object ds lazy = .ok (r, ds')) ∧
    (∀ (cur v : JSValue) (seg : String) (rest : List String),
      getMember cur seg = .ok v → isDefined v = false →
      walkPath cur (seg :: rest) = .ok (v, false)) := by
  constructor
  · obtain ⟨⟨r, ds'⟩, hq⟩ := validateAux_ok object lazy hobj ds { valid := true, errors := [] } hwf
    exact ⟨r, ds', hq⟩
  · intro cur v seg rest h1 h2
    rw [walkPath_cons, h1]
    simp [h2]

/-- C2 counterexample: with a well-formed singleton descriptor list the
null root object makes the very first property access throw, so
validate does not return a ValidationResult for every input object. -/
theorem c2_counterexample :
    validate .null [{ required := .nonArray (.str "a") }] false = .error () := by rfl

/-- C2 witness: the no-throw theorem applied to a well-formed singleton
descriptor list over the empty object. -/
theorem c2_no_throw_witness :
    ∃ r ds', validate (.obj []) [{ required := .nonArray (.str "a") }] false = .ok (r, ds') := by
  refine (c2_no_throw (.obj []) [{ required := .nonArray (.str "a") }] false rfl ?_).1
  intro d hd p hp
  simp only [List.mem_singleton] at hd
  subst hd
  simp only [normalizeRequired, List.mem_singleton] at hp
  subst hp
  exact ⟨"a", rfl⟩

/-! ### In-place normalization (C8) -/

/-- The first component of a successful descriptor evaluation is the
in-place-normalized descriptor. -/
theorem processDescriptor_fst (object : JSValue) (d : PropertyDescriptor)
    (p : PropertyDescriptor × Option JSValue)
    (h : processDescriptor object d = .ok p) : p.1 = normalizeDescriptor d := by
  unfold processDescriptor at h
  cases hany : doesObjectHaveAny object (normalizeRequired d.required) d.invalidValues with
  | error e => rw [hany] at h; cases h
  | ok v =>
    rw [hany] at h
    rcases v with _ | b
    · cases h; rfl
    · cases b
      · cases h; rfl
      · cases h; rfl

/-- A completing non-lazy run returns the descriptor list with every
descriptor normalized in place. -/
theorem validateAux_nonlazy_normalizes (object : JSValue) :
    ∀ (ds : List PropertyDescriptor) (acc r : ValidationResult)
      (ds' : List PropertyDescriptor),
      validateAux object false ds acc = .ok (r, ds') →
      ds' = ds.map normalizeDescriptor := by
  intro ds
  induction ds with
  | nil =>
    intro acc r ds' h
    rw [show validateAux object false [] acc = .ok (acc, []) from rfl] at h
    cases h
    rfl
  | cons d rest ih =>
    intro acc r ds' h
    rw [validateAux_cons] at h
    cases hp : processDescriptor object d with
    | error e => rw [hp] at h; cases h
    | ok p =>
      rw [hp] at h
      obtain ⟨d', payload⟩ := p
      have hd' : d' = normalizeDescriptor d := processDescriptor_fst object d (d', payload) hp
      rcases payload with _ | e
      · cases hrec : validateAux object false rest acc with
        | error e => rw [hrec] at h; cases h
        | ok q =>
          obtain ⟨r1, rest1⟩ := q
          rw [hrec] at h
          cases h
          rw [List.map_cons, hd', ih _ _ _ hrec]
      · simp only [Bool.false_eq_true, if_false] at h
        cases hrec : validateAux object false rest { valid := false, errors := acc.errors ++ [e] } with
        | error er => rw [hrec] at h; cases h
        | ok q =>
          obtain ⟨r1, rest1⟩ := q
          rw [hrec] at h
          cases h
          rw [List.map_cons, hd', ih _ _ _ hrec]

/-- C8 counterexample: under lazy evaluation with a failing first
descriptor, the second descriptor with a single path string keeps that
string un-normalized after the call, so not every single-string
descriptor is replaced by a one-element list. -/
theorem c8_counterexample :
    validate (.obj [])
        [{ required := .nonArray (.str "x") }, { required := .nonArray (.str "y") }] true =
      .ok ({ valid := false,
             errors := [.obj [("message", .str "Object must contain a valid value for x")]] },
           [{ required := .array [.str "x"] }, { required := .nonArray (.str "y") }]) ∧
    ReqField.nonArray (.str "y") ≠ .array [.str "y"] :=
  ⟨by rfl, fun h => ReqField.noConfusion h⟩

/-- C8 (amended): on a completing non-lazy run, validate returns the
caller-supplied descriptor list with every descriptor normalized in
place: a single non-array required value is replaced by the one-element
list holding it, and a descriptor whose required field is already a
list comes back entirely unchanged.  Under lazy mode, descriptors after
the first failing one are not visited and keep their original field. -/
theorem c8_inplace_normalization (object : JSValue) (ds : List PropertyDescriptor)
    (r : ValidationResult) (ds' : List PropertyDescriptor)
    (hrun : validate object ds false = .ok (r, ds')) :
    ds' = ds.map normalizeDescriptor ∧
    (∀ (d : PropertyDescriptor) (v : JSValue), d.required = .nonArray v →
      (normalizeDescriptor d).required = .array [v]) ∧
    (∀ (d : PropertyDescriptor) (vs : List JSValue), d.required = .array vs →
      normalizeDescriptor d = d) := by
  refine ⟨validateAux_nonlazy_normalizes object ds { valid := true, errors := [] } r ds' hrun,
    ?_, ?_⟩
  · intro d v hdv
    simp [normalizeDescriptor, normalizeRequired, hdv]
  · intro d vs hdv
    cases d
    simp only at hdv
    subst hdv
    rfl

/-- C8 witness: a concrete non-lazy run whose returned descriptor list
is the map of the normalization over the input list. -/
theorem c8_inplace_normalization_witness :
    [({ required := .array [.str "x"] } : PropertyDescriptor),
     { required := .array [.str "y"] }] =
      List.map normalizeDescriptor
        [({ required := .nonArray (.str "x") } : PropertyDescriptor),
         { required := .nonArray (.str "y") }] :=
  (c8_inplace_normalization (.obj [])
    [{ required := .nonArray (.str "x") }, { required := .nonArray (.str "y") }]
    { valid := false,
      errors := [.obj [("message", .str "Object must contain a valid value for x")],
                 .obj [("message", .str "Object must contain a valid value for y")]] }
    [{ required := .array [.str "x"] }, { required := .array [.str "y"] }]
    (by rfl)).1

/-! ### Absent required field (C9) -/

/-- Evaluating a descriptor whose required field is the wrapped absent
value throws: split is called on undefined. -/
theorem processDescriptor_absent (object : JSValue) (d : PropertyDescriptor)
    (habs : d.required = .nonArray .undefined) :
    processDescriptor object d = .error () := by
  unfold processDescriptor doesObjectHaveAny
  rw [habs]
  rfl

/-- In non-lazy mode the descriptor loop throws whenever the list holds
a descriptor with an absent required field, whatever the accumulator. -/
theorem validateAux_absent (object : JSValue) (d : PropertyDescriptor)
    (habs : d.required = .nonArray .undefined) :
    ∀ (ds : List PropertyDescriptor) (acc : ValidationResult), d ∈ ds →
      validateAux object false ds acc = .error () := by
  intro ds
  induction ds with
  | nil => intro acc h; exact absurd h (List.not_mem_nil d)
  | cons d0 rest ih =>
    intro acc hmem
    rw [validateAux_cons]
    rcases List.mem_cons.mp hmem with heq | hmem'
    · rw [← heq, processDescriptor_absent object d habs]
    · cases hp : processDescriptor object d0 with
      | error e => cases e; rfl
      | ok p =>
        obtain ⟨d', payload⟩ := p
        rcases payload with _ | e
        · rw [ih acc hmem']
        · simp only [Bool.false_eq_true, if_false]
          rw [ih { valid := false, errors := acc.errors ++ [e] } hmem']

/-- C9 counterexample: in lazy mode an earlier failing descriptor stops
iteration before the descriptor with an absent required field is
reached, and validate returns normally instead of raising. -/
theorem c9_counterexample :
    validate (.obj [])
        [{ required := .nonArray (.str "x") }, { required := .nonArray .undefined }] true =
      .ok ({ valid := false,
             errors := [.obj [("message", .str "Object must contain a valid value for x")]] },
           [{ required := .array [.str "x"] }, { required := .nonArray .undefined }]) := by
  rfl

/-- C9 (amended): in non-lazy mode (the default), a descriptor list
containing a descriptor whose required field is absent always makes
validate raise at validation time — calling split on the wrapped
undefined throws — rather than silently treating the descriptor as
passing or skipping it.  Under lazy mode the same holds unless an
earlier failing descriptor stops iteration first. -/
theorem c9_absent_required_raises (object : JSValue) (ds : List PropertyDescriptor)
    (d : PropertyDescriptor) (hd : d ∈ ds) (habs : d.required = .nonArray .undefined) :
    validate object ds false = .error () :=
  validateAux_absent object d habs ds { valid := true, errors := [] } hd

/-- C9 witness: concrete descriptor list whose second entry lacks the
required field; non-lazy validation throws. -/
theorem c9_absent_required_raises_witness :
    validate (.obj [])
        [{ required := .nonArray (.str "x") }, { required := .nonArray .undefined }] false =
      .error () :=
  c9_absent_required_raises (.obj [])
    [{ required := .nonArray (.str "x") }, { required := .nonArray .undefined }]
    { required := .nonArray .undefined }
    (List.mem_cons_of_mem _ (List.mem_cons_self _ _)) rfl

/-! ### One-of semantics across candidates (C6) -/

/-- Over a defined object, evaluating a string candidate yields true or
false, never a throw. -/
theorem doesObjectHaveProperty_dichotomy (object : JSValue) (p : JSValue)
    (iv : Option (List JSValue)) (hwf : ∃ s, p = JSValue.str s)
    (hobj : isDefined object = true) :
    doesObjectHaveProperty object p iv = .ok true ∨
      doesObjectHaveProperty object p iv = .ok false := by
  obtain ⟨s, rfl⟩ := hwf
  obtain ⟨b, hb⟩ := doesObjectHaveProperty_ok object s iv hobj
  cases b
  · exact Or.inr hb
  · exact Or.inl hb

/-- The candidate loop reports false exactly when every candidate of a
non-empty list evaluates to false. -/
theorem doesObjectHaveAnyAux_false_iff (object : JSValue) (iv : Option (List JSValue)) :
    ∀ (ps : List JSValue) (acc : Option Bool), ps ≠ [] →
      (doesObjectHaveAnyAux object iv ps acc = .ok (some false) ↔
        ∀ p ∈ ps, doesObjectHaveProperty object p iv = .ok false) := by
  intro ps
  induction ps with
  | nil => intro acc h; exact absurd rfl h
  | cons p rest ih =>
    intro acc _
    rw [doesObjectHaveAnyAux_cons]
    cases hp : doesObjectHaveProperty object p iv with
    | error e =>
      constructor
      · intro h; cases h
      · intro h
        have hfalse := h p (List.mem_cons_self p rest)
        rw [hp] at hfalse
        cases hfalse
    | ok b =>
      cases b
      · simp only [Bool.false_eq_true, if_false]
        cases rest with
        | nil => simp [doesObjectHaveAnyAux, hp]
        | cons q rest' =>
          rw [ih (some false) (List.cons_ne_nil q rest')]
          constructor
          · intro h x hx
            rcases List.mem_cons.mp hx with heq | hx'
            · rw [heq]; exact hp
            · exact h x hx'
          · intro h x hx
            exact h x (List.mem_cons_of_mem _ hx)
      · simp only [if_true]
        constructor
        · intro h; simp at h
        · intro h
          have hfalse := h p (List.mem_cons_self p rest)
          rw [hp] at hfalse
          simp at hfalse

/-- A true report from the candidate loop started below true decomposes
the list into a failing prefix followed by the first valid candidate:
candidates are checked in order and checking stops at the first valid
one. -/
theorem doesObjectHaveAnyAux_true_decomp (object : JSValue) (iv : Option (List JSValue)) :
    ∀ (ps : List JSValue) (acc : Option Bool), acc ≠ some true →
      doesObjectHaveAnyAux object iv ps acc = .ok (some true) →
      ∃ l1 q l2, ps = l1 ++ q :: l2 ∧
        (∀ x ∈ l1, doesObjectHaveProperty object x iv = .ok false) ∧
        doesObjectHaveProperty object q iv = .ok true := by
  intro ps
  induction ps with
  | nil =>
    intro acc hacc h
    rw [show doesObjectHaveAnyAux object iv [] acc = .ok acc from rfl] at h
    cases h
    exact absurd rfl hacc
  | cons p rest ih =>
    intro acc _ h
    rw [doesObjectHaveAnyAux_cons] at h
    cases hp : doesObjectHaveProperty object p iv with
    | error e => rw [hp] at h; cases h
    | ok b =>
      rw [hp] at h
      cases b
      · simp only [Bool.false_eq_true, if_false] at h
        obtain ⟨l1, q, l2, hsplit, hpre, hq⟩ := ih (some false) (by simp) h
        exact ⟨p :: l1, q, l2, by rw [hsplit, List.cons_append],
          fun x hx => by
            rcases List.mem_cons.mp hx with heq | hx'
            · rw [heq]; exact hp
            · exact hpre x hx',
          hq⟩
      · exact ⟨[], p, rest, rfl, fun x hx => absurd hx (List.not_mem_nil x), hp⟩

/-- If some candidate of a well-formed list evaluates to true, the
candidate loop reports true regardless of its accumulator. -/
theorem doesObjectHaveAnyAux_true_of_mem (object : JSValue) (iv : Option (List JSValue))
    (hobj : isDefined object = true) :
    ∀ (ps : List JSValue) (acc : Option Bool),
      (∀ p ∈ ps, ∃ s, p = JSValue.str s) →
      (∃ p ∈ ps, doesObjectHaveProperty object p iv = .ok true) →
      doesObjectHaveAnyAux object iv ps acc = .ok (some true) := by
  intro ps
  induction ps with
  | nil =>
    intro acc _ h
    rcases h with ⟨p, hp, _⟩
    exact absurd hp (List.not_mem_nil p)
  | cons p rest ih =>
    intro acc hwf hex
    rw [doesObjectHaveAnyAux_cons]
    rcases doesObjectHaveProperty_dichotomy object p iv
        (hwf p (List.mem_cons_self p rest)) hobj with ht | hf
    · rw [ht]; simp
    · rw [hf]
      simp only [Bool.false_eq_true, if_false]
      rcases hex with ⟨q, hq, hqt⟩
      rcases List.mem_cons.mp hq with heq | hq'
      · rw [heq, hf] at hqt; simp at hqt
      · exact ih (some false) (fun x hx => hwf x (List.mem_cons_of_mem _ hx)) ⟨q, hq', hqt⟩

/-- C6: over a non-empty candidate list of string paths against a
defined object, the descriptor evaluates valid (loop result true) iff
at least one candidate resolves to a found value outside the
invalid-value set, evaluates invalid (loop result false) iff every
candidate fails, and in the valid case the candidate list splits into a
failing prefix followed by the first valid candidate: candidates are
checked in list order and checking stops at the first valid one. -/
theorem c6_one_of_semantics (object : JSValue) (ps : List JSValue)
    (iv : Option (List JSValue)) (hne : ps ≠ [])
    (hwf : ∀ p ∈ ps, ∃ s, p = JSValue.str s)
    (hobj : isDefined object = true) :
    (doesObjectHaveAny object ps iv = .ok (some true) ↔
      ∃ p ∈ ps, doesObjectHaveProperty object p iv = .ok true) ∧
    (doesObjectHaveAny object ps iv = .ok (some false) ↔
      ∀ p ∈ ps, doesObjectHaveProperty object p iv = .ok false) ∧
    (doesObjectHaveAny object ps iv = .ok (some true) →
      ∃ l1 q l2, ps = l1 ++ q :: l2 ∧
        (∀ x ∈ l1, doesObjectHaveProperty object x iv = .ok false) ∧
        doesObjectHaveProperty object q iv = .ok true) := by
  unfold doesObjectHaveAny
  refine ⟨⟨fun h => ?_, fun h => doesObjectHaveAnyAux_true_of_mem object iv hobj ps none hwf h⟩,
    doesObjectHaveAnyAux_false_iff object iv ps none hne,
    fun h => doesObjectHaveAnyAux_true_decomp object iv ps none (by simp) h⟩
  obtain ⟨l1, q, l2, hsplit, _, hq⟩ :=
    doesObjectHaveAnyAux_true_decomp object iv ps none (by simp) h
  refine ⟨q, ?_, hq⟩
  rw [hsplit]
  exact List.mem_append_right l1 (List.mem_cons_self q l2)

/-- C6 witness: concrete one-of group on the README object, where the
second candidate is present. -/
theorem c6_one_of_semantics_witness :
    doesObjectHaveAny toValidate [.str "notThere", .str "name"] none = .ok (some true) ↔
      ∃ p ∈ [JSValue.str "notThere", JSValue.str "name"],
        doesObjectHaveProperty toValidate p none = .ok true := by
  refine (c6_one_of_semantics toValidate [.str "notThere", .str "name"] none
    (List.cons_ne_nil _ _) ?_ rfl).1
  intro p hp
  rcases List.mem_cons.mp hp with heq | hp'
  · exact ⟨"notThere", heq⟩
  · rcases List.mem_singleton.mp hp' with heq'
    exact ⟨"name", heq'⟩

/-! ### Lazy versus non-lazy evaluation (C5) -/

/-- A completing non-lazy run only ever appends to the accumulated
error list, and the final valid flag is the accumulated flag and-ed
with the emptiness of the newly produced errors. -/
theorem validateAux_nonlazy_accum (object : JSValue) :
    ∀ (ds : List PropertyDescriptor) (acc r : ValidationResult)
      (ds' : List PropertyDescriptor),
      validateAux object false ds acc = .ok (r, ds') →
      ∃ es, r.errors = acc.errors ++ es ∧ r.valid = (acc.valid && es.isEmpty) := by
  intro ds
  induction ds with
  | nil =>
    intro acc r ds' h
    rw [show validateAux object false [] acc = .ok (acc, []) from rfl] at h
    cases h
    exact ⟨[], by simp⟩
  | cons d rest ih =>
    intro acc r ds' h
    rw [validateAux_cons] at h
    cases hp : processDescriptor object d with
    | error e => rw [hp] at h; cases h
    | ok p =>
      rw [hp] at h
      obtain ⟨d', payload⟩ := p
      rcases payload with _ | e
      · cases hrec : validateAux object false rest acc with
        | error e2 => rw [hrec] at h; cases h
        | ok q =>
          obtain ⟨r1, rest1⟩ := q
          rw [hrec] at h
          cases h
          exact ih acc _ _ hrec
      · simp only [Bool.false_eq_true, if_false] at h
        cases hrec :
            validateAux object false rest { valid := false, errors := acc.errors ++ [e] } with
        | error er => rw [hrec] at h; cases h
        | ok q =>
          obtain ⟨r1, rest1⟩ := q
          rw [hrec] at h
          cases h
          obtain ⟨es, he, hv⟩ := ih _ _ _ hrec
          refine ⟨e :: es, ?_, ?_⟩
          · rw [he]; simp
          · rw [hv]; simp

/-- A completing non-lazy run from the initial accumulator has a lazy
counterpart: the lazy run completes too, agrees on the valid flag, and
its error list is the first error of the non-lazy run. -/
theorem validateAux_lazy_of_nonlazy (object : JSValue) :
    ∀ (ds : List PropertyDescriptor) (r : ValidationResult) (ds' : List PropertyDescriptor),
      validateAux object false ds { valid := true, errors := [] } = .ok (r, ds') →
      ∃ rl dsl, validateAux object true ds { valid := true, errors := [] } = .ok (rl, dsl) ∧
        rl.valid = r.valid ∧ rl.errors = r.errors.take 1 := by
  intro ds
  induction ds with
  | nil =>
    intro r ds' h
    rw [show validateAux object false [] { valid := true, errors := [] } =
        .ok (({ valid := true, errors := [] } : ValidationResult), []) from rfl] at h
    cases h
    exact ⟨_, _, rfl, rfl, rfl⟩
  | cons d rest ih =>
    intro r ds' h
    rw [validateAux_cons] at h
    rw [validateAux_cons]
    cases hp : processDescriptor object d with
    | error e => rw [hp] at h; cases h
    | ok p =>
      rw [hp] at h
      obtain ⟨d', payload⟩ := p
      rcases payload with _ | e
      · cases hrec : validateAux object false rest { valid := true, errors := [] } with
        | error e2 => rw [hrec] at h; cases h
        | ok q =>
          obtain ⟨r1, rest1⟩ := q
          rw [hrec] at h
          cases h
          obtain ⟨rl, dsl, hlz, hv, he⟩ := ih _ _ hrec
          rw [hlz]
          exact ⟨rl, d' :: dsl, rfl, hv, he⟩
      · simp only [Bool.false_eq_true, if_false, List.nil_append] at h
        simp only [if_true, List.nil_append]
        cases hrec : validateAux object false rest { valid := false, errors := [e] } with
        | error er => rw [hrec] at h; cases h
        | ok q =>
          obtain ⟨r1, rest1⟩ := q
          rw [hrec] at h
          cases h
          obtain ⟨es, hes, hesv⟩ := validateAux_nonlazy_accum object rest _ _ _ hrec
          refine ⟨{ valid := false, errors := [e] }, d' :: rest, rfl, ?_, ?_⟩
          · rw [hesv]; simp
          · rw [hes]; simp

/-- A completing lazy run from the initial accumulator carries at most
one error. -/
theorem validateAux_lazy_len (object : JSValue) :
    ∀ (ds : List PropertyDescriptor) (r : ValidationResult) (ds' : List PropertyDescriptor),
      validateAux object true ds { valid := true, errors := [] } = .ok (r, ds') →
      r.errors.length ≤ 1 := by
  intro ds
  induction ds with
  | nil =>
    intro r ds' h
    rw [show validateAux object true [] { valid := true, errors := [] } =
        .ok (({ valid := true, errors := [] } : ValidationResult), []) from rfl] at h
    cases h
    simp
  | cons d rest ih =>
    intro r ds' h
    rw [validateAux_cons] at h
    cases hp : processDescriptor object d with
    | error e => rw [hp] at h; cases h
    | ok p =>
      rw [hp] at h
      obtain ⟨d', payload⟩ := p
      rcases payload with _ | e
      · cases hrec : validateAux object true rest { valid := true, errors := [] } with
        | error e2 => rw [hrec] at h; cases h
        | ok q =>
          obtain ⟨r1, rest1⟩ := q
          rw [hrec] at h
          cases h
          exact ih _ _ hrec
      · simp only [if_true, List.nil_append] at h
        cases h
        simp

/-- C5: the lazy error list of a completing lazy run has length at most
one; and whenever the non-lazy run completes, the lazy run completes
too, both runs agree on the valid flag, the lazy error list is the
one-element prefix of the non-lazy error list, it is empty iff the
non-lazy error list is, and the non-lazy valid flag is the emptiness of
its error list (every descriptor passed). -/
theorem c5_lazy_refines_nonlazy :
    (∀ (object : JSValue) (ds : List PropertyDescriptor) (r : ValidationResult)
      (ds' : List PropertyDescriptor),
      validate object ds true = .ok (r, ds') → r.errors.length ≤ 1) ∧
    (∀ (object : JSValue) (ds : List PropertyDescriptor) (r : ValidationResult)
      (ds' : List PropertyDescriptor),
      validate object ds false = .ok (r, ds') →
      ∃ rl dsl, validate object ds true = .ok (rl, dsl) ∧
        rl.valid = r.valid ∧
        rl.errors = r.errors.take 1 ∧
        (rl.errors = [] ↔ r.errors = []) ∧
        r.valid = r.errors.isEmpty) := by
  constructor
  · exact fun object ds r ds' h => validateAux_lazy_len object ds r ds' h
  · intro object ds r ds' hrun
    obtain ⟨rl, dsl, hlz, hv, he⟩ := validateAux_lazy_of_nonlazy object ds r ds' hrun
    obtain ⟨es, hes, hesv⟩ :=
      validateAux_nonlazy_accum object ds { valid := true, errors := [] } r ds' hrun
    simp only [List.nil_append] at hes
    refine ⟨rl, dsl, hlz, hv, he, ?_, ?_⟩
    · rw [he]
      cases r.errors with
      | nil => simp
      | cons x xs => simp
    · rw [hes, hesv]
      cases es with
      | nil => simp [List.isEmpty]
      | cons x xs => simp [List.isEmpty]

/-- C5 witness: a two-descriptor list whose second descriptor fails;
the non-lazy run completes with one error and the theorem yields the
lazy counterpart. -/
theorem c5_lazy_refines_nonlazy_witness :
    ∃ rl dsl,
      validate (.obj [("name", .str "v")])
          [{ required := .nonArray (.str "name") },
           { required := .nonArray (.str "missing") }] true = .ok (rl, dsl) ∧
      rl.valid = false ∧
      rl.errors = List.take 1
        [JSValue.obj [("message", .str "Object must contain a valid value for missing")]] ∧
      (rl.errors = [] ↔
        [JSValue.obj [("message", .str "Object must contain a valid value for missing")]] =
          ([] : List JSValue)) ∧
      (false : Bool) =
        [JSValue.obj
          [("message", .str "Object must contain a valid value for missing")]].isEmpty :=
  c5_lazy_refines_nonlazy.2 (.obj [("name", .str "v")])
    [{ required := .nonArray (.str "name") }, { required := .nonArray (.str "missing") }]
    { valid := false,
      errors := [.obj [("message", .str "Object must contain a valid value for missing")]] }
    [{ required := .array [.str "name"] }, { required := .array [.str "missing"] }]
    (by rfl)

/-! ### Default message formatting (C7) -/

/-- Strings with the same character data are equal. -/
theorem str_ext (a b : String) (h : a.data = b.data) : a = b := by
  cases a
  cases b
  exact congrArg String.mk h

/-- Trim is the identity on a string that neither starts nor ends with
whitespace. -/
theorem jsTrim_eq_self (s : String)
    (h1 : ∃ c cs, s.data = c :: cs ∧ c.isWhitespace = false)
    (h2 : ∃ ds d, s.data = ds ++ [d] ∧ d.isWhitespace = false) :
    jsTrim s = s := by
  obtain ⟨c, cs, hc, hcw⟩ := h1
  obtain ⟨ds, d, hd, hdw⟩ := h2
  apply str_ext
  show (((s.data.dropWhile Char.isWhitespace).reverse.dropWhile Char.isWhitespace).reverse) = s.data
  have e1 : s.data.dropWhile Char.isWhitespace = s.data := by
    rw [hc, List.dropWhile_cons, hcw]
    simp
  rw [e1, hd, List.reverse_append]
  simp [List.dropWhile_cons, hdw]

/-- Trimming after appending one space is trimming the string itself,
provided the string starts with a non-whitespace character. -/
theorem jsTrim_append_space (s : String)
    (h1 : ∃ c cs, s.data = c :: cs ∧ c.isWhitespace = false) :
    jsTrim (s ++ " ") = jsTrim s := by
  obtain ⟨c, cs, hc, hcw⟩ := h1
  apply str_ext
  show (((s ++ " ").data.dropWhile Char.isWhitespace).reverse.dropWhile Char.isWhitespace).reverse
      = ((s.data.dropWhile Char.isWhitespace).reverse.dropWhile Char.isWhitespace).reverse
  have hdata : (s ++ " ").data = s.data ++ [' '] := by
    rw [String.data_append]
  have e1 : s.data.dropWhile Char.isWhitespace = s.data := by
    rw [hc, List.dropWhile_cons, hcw]
    simp
  have e2 : (s.data ++ [' ']).dropWhile Char.isWhitespace = s.data ++ [' '] := by
    rw [hc, List.cons_append, List.dropWhile_cons, hcw]
    simp
  rw [hdata, e2, e1, List.reverse_append]
  simp only [List.reverse_singleton, List.singleton_append, List.dropWhile_cons]
  simp

/-- String coercion is the identity on string values. -/
theorem jsStringOfValue_str (s : String) : jsStringOfValue (.str s) = s := rfl

/-- The message loop on an exhausted candidate array. -/
theorem messageLoop_nil (n idx : Nat) (acc : String) : messageLoop n idx [] acc = acc := rfl

/-- One iteration of the message loop. -/
theorem messageLoop_cons (n idx : Nat) (p : JSValue) (rest : List JSValue) (acc : String) :
    messageLoop n idx (p :: rest) acc =
      messageLoop n (idx + 1) rest (messageStep n idx p acc) := rfl

/-- A non-final candidate of an array of three or more gets a trailing
comma and space. -/
theorem messageStep_mid (n idx : Nat) (p : JSValue) (acc : String)
    (h1 : 2 < n) (h2 : idx ≠ n - 1) :
    messageStep n idx p acc = acc ++ jsStringOfValue p ++ ", " := by
  have hb : (idx == n - 1) = false := beq_eq_false_iff_ne.mpr h2
  have hbne : (idx != n - 1) = true := by simp [bne, hb]
  unfold messageStep
  rw [hb, hbne]
  simp [h1]

/-- The final candidate of an array of two or more gets the word or in
front and a trailing space. -/
theorem messageStep_last (n idx : Nat) (p : JSValue) (acc : String)
    (h1 : 1 < n) (h2 : idx = n - 1) :
    messageStep n idx p acc = acc ++ "or " ++ jsStringOfValue p ++ " " := by
  have hb : (idx == n - 1) = true := beq_iff_eq.mpr h2
  have hbne : (idx != n - 1) = false := by simp [bne, hb]
  have h2' : 2 ≤ n := by omega
  unfold messageStep
  rw [hb, hbne]
  simp [h1, h2']

/-- Unfolding of the join tail on a list of two or more entries. -/
theorem oxfordJoinTail_cons (x : String) (rest : List String) (h : rest ≠ []) :
    oxfordJoinTail (x :: rest) = x ++ ", " ++ oxfordJoinTail rest := by
  cases rest with
  | nil => exact absurd rfl h
  | cons y t => rfl

/-- The join tail ends with the final path. -/
theorem oxfordJoinTail_last :
    ∀ (mid : List String) (last : String), ∃ S, oxfordJoinTail (mid ++ [last]) = S ++ last := by
  intro mid
  induction mid with
  | nil => exact fun last => ⟨"or ", rfl⟩
  | cons x mid' ih =>
    intro last
    obtain ⟨S, hS⟩ := ih last
    refine ⟨x ++ ", " ++ S, ?_⟩
    rw [List.cons_append, oxfordJoinTail_cons x (mid' ++ [last]) (by simp), hS]
    simp [String.append_assoc]

/-- The message loop over the candidates after the first, for arrays of
three or more: comma-joined entries, the word or before the last, and a
trailing space. -/
theorem messageLoop_tail (n : Nat) (hn : 2 < n) :
    ∀ (mid : List String) (last : String) (idx : Nat) (acc : String),
      idx + mid.length = n - 1 →
      messageLoop n idx ((mid ++ [last]).map JSValue.str) acc =
        acc ++ oxfordJoinTail (mid ++ [last]) ++ " " := by
  intro mid
  induction mid with
  | nil =>
    intro last idx acc hidx
    simp only [List.nil_append, List.map_cons, List.map_nil]
    rw [messageLoop_cons, messageLoop_nil,
      messageStep_last n idx (.str last) acc (by omega) (by simpa using hidx),
      jsStringOfValue_str]
    show acc ++ "or " ++ last ++ " " = acc ++ oxfordJoinTail [last] ++ " "
    rw [show oxfordJoinTail [last] = "or " ++ last from rfl, ← String.append_assoc]
  | cons x mid' ih =>
    intro last idx acc hidx
    simp only [List.cons_append, List.map_cons]
    rw [messageLoop_cons,
      messageStep_mid n idx (.str x) acc hn (by simp at hidx; omega),
      jsStringOfValue_str,
      ih last (idx + 1) (acc ++ x ++ ", ") (by simp at hidx ⊢; omega)]
    rw [oxfordJoinTail_cons x (mid' ++ [last]) (by simp)]
    simp [String.append_assoc]

/-- Unfolding of the join on a list of three or more entries. -/
theorem oxfordJoin_cons_cons (x y : String) (rest : List String) (h : rest ≠ []) :
    oxfordJoin (x :: y :: rest) = x ++ ", " ++ oxfordJoinTail (y :: rest) := by
  cases rest with
  | nil => exact absurd rfl h
  | cons z t => rfl

/-- Any string extending the fixed message prefix starts with a
non-whitespace character. -/
theorem message_head_of (X : String)
    (h : ∃ t, X = "Object must contain a valid value for " ++ t) :
    ∃ c cs, X.data = c :: cs ∧ c.isWhitespace = false := by
  obtain ⟨t, rfl⟩ := h
  refine ⟨'O', "bject must contain a valid value for ".data ++ t.data, ?_, by decide⟩
  rw [String.data_append]
  rfl

/-- Appending on the left preserves the final character. -/
theorem append_last_char (S y : String)
    (h : ∃ ds d, y.data = ds ++ [d] ∧ d.isWhitespace = false) :
    ∃ ds d, (S ++ y).data = ds ++ [d] ∧ d.isWhitespace = false := by
  obtain ⟨ds, d, hd, hw⟩ := h
  exact ⟨S.data ++ ds, d, by rw [String.data_append, hd, List.append_assoc], hw⟩

/-- C7 (amended): for a failing descriptor without a custom error whose
path list is non-empty and whose last path ends in a non-whitespace
character, the synthesized message is the fixed prefix followed by the
Oxford-comma style join: one path alone, two joined with the word or,
three or more comma-separated with the word or before the last.  The
built message is whitespace-trimmed at the end, so a last path ending
in whitespace loses that whitespace (hence the hypothesis). -/
theorem c7_message_formatting (paths : List String)
    (hlast : ∃ lp, paths.getLast? = some lp ∧
      ∃ ds d, lp.data = ds ++ [d] ∧ d.isWhitespace = false) :
    defaultMessage (paths.map JSValue.str) =
      "Object must contain a valid value for " ++ oxfordJoin paths := by
  obtain ⟨lp, hlp, hchar⟩ := hlast
  cases paths with
  | nil => cases hlp
  | cons x rest =>
    cases rest with
    | nil =>
      have hx : lp = x := by
        rw [show ([x] : List String).getLast? = some x from rfl] at hlp
        exact (Option.some.inj hlp).symm
      rw [hx] at hchar
      show jsTrim (messageLoop 1 0 [JSValue.str x] "Object must contain a valid value for ") =
        "Object must contain a valid value for " ++ oxfordJoin [x]
      rw [show messageLoop 1 0 [JSValue.str x] "Object must contain a valid value for " =
        "Object must contain a valid value for " ++ x from rfl]
      rw [jsTrim_eq_self _ (message_head_of _ ⟨x, rfl⟩)
        (append_last_char _ x hchar)]
      rfl
    | cons y rest2 =>
      cases rest2 with
      | nil =>
        have hy : lp = y := by
          rw [show ([x, y] : List String).getLast? = some y from rfl] at hlp
          exact (Option.some.inj hlp).symm
        rw [hy] at hchar
        show jsTrim (messageLoop 2 0 [JSValue.str x, JSValue.str y]
            "Object must contain a valid value for ") =
          "Object must contain a valid value for " ++ oxfordJoin [x, y]
        rw [messageLoop_cons, messageLoop_cons, messageLoop_nil]
        rw [show messageStep 2 0 (JSValue.str x) "Object must contain a valid value for " =
          "Object must contain a valid value for " ++ x ++ " " from rfl]
        rw [messageStep_last 2 1 (JSValue.str y) _ (by omega) rfl, jsStringOfValue_str]
        rw [jsTrim_append_space _
          (message_head_of _ ⟨x ++ " or " ++ y, by simp [String.append_assoc]⟩)]
        rw [jsTrim_eq_self _
          (message_head_of _ ⟨x ++ " or " ++ y, by simp [String.append_assoc]⟩)
          (append_last_char _ y hchar)]
        apply str_ext
        rw [show oxfordJoin [x, y] = x ++ " or " ++ y from rfl]
        have d1 : (" " : String).data = [' '] := rfl
        have d2 : ("or " : String).data = ['o', 'r', ' '] := rfl
        have d3 : (" or " : String).data = [' ', 'o', 'r', ' '] := rfl
        simp [String.data_append, d1, d2, d3, List.append_assoc]
      | cons z rest3 =>
        obtain ⟨mid, last, hml⟩ : ∃ mid last, (y :: z :: rest3 : List String) = mid ++ [last] :=
          ⟨_, _, (List.dropLast_append_getLast (List.cons_ne_nil y (z :: rest3))).symm⟩
        have hmlen : mid.length = rest3.length + 1 := by
          have hlen := congrArg List.length hml
          simp at hlen
          omega
        have hglast : lp = last := by
          rw [hml, show (x :: (mid ++ [last])) = (x :: mid) ++ [last] from rfl,
            List.getLast?_concat] at hlp
          exact (Option.some.inj hlp).symm
        rw [hglast] at hchar
        have hn : ((x :: y :: z :: rest3).map JSValue.str).length = rest3.length + 3 := by
          simp
        unfold defaultMessage
        rw [hn, hml]
        simp only [List.map_cons]
        rw [messageLoop_cons,
          messageStep_mid (rest3.length + 3) 0 (JSValue.str x) _ (by omega) (by omega),
          jsStringOfValue_str,
          messageLoop_tail (rest3.length + 3) (by omega) mid last 1 _ (by omega)]
        obtain ⟨S, hS⟩ := oxfordJoinTail_last mid last
        rw [jsTrim_append_space _ (message_head_of _
          ⟨x ++ (", " ++ oxfordJoinTail (mid ++ [last])), by simp [String.append_assoc]⟩)]
        have hlastchar : ∃ ds d,
            (("Object must contain a valid value for " ++ x ++ ", ") ++
              oxfordJoinTail (mid ++ [last])).data = ds ++ [d] ∧ d.isWhitespace = false := by
          rw [hS, ← String.append_assoc]
          exact append_last_char _ last hchar
        rw [jsTrim_eq_self _ (message_head_of _
          ⟨x ++ (", " ++ oxfordJoinTail (mid ++ [last])), by simp [String.append_assoc]⟩)
          hlastchar]
        cases mid with
        | nil => simp at hmlen
        | cons m0 mid' =>
          simp only [List.cons_append]
          rw [oxfordJoin_cons_cons x m0 (mid' ++ [last]) (by simp)]
          simp [String.append_assoc]

/-- C7 counterexample: a single path ending in a space produces the
trimmed message without that space, not the prefix followed by the path
verbatim. -/
theorem c7_counterexample :
    (validate (.obj []) [{ required := .nonArray (.str "x ") }] false).map Prod.fst =
      .ok { valid := false,
            errors := [.obj [("message", .str "Object must contain a valid value for x")]] } ∧
    ("Object must contain a valid value for x" : String) ≠
      "Object must contain a valid value for x " :=
  ⟨by rfl, by decide⟩

/-- C7 witness: the three-path example of the claim, yielding exactly
the comma-separated message with the word or before the last path. -/
theorem c7_message_formatting_witness :
    defaultMessage ([("a" : String), "b", "c"].map JSValue.str) =
      "Object must contain a valid value for " ++ oxfordJoin ["a", "b", "c"] ∧
    defaultMessage [JSValue.str "a", .str "b", .str "c"] =
      "Object must contain a valid value for a, b, or c" :=
  ⟨c7_message_formatting ["a", "b", "c"] ⟨"c", rfl, [], 'c', rfl, by decide⟩, by rfl⟩
